import Mathlib

/-!
Verification of the sparse mixture-of-experts dispatch/combine core of the MSPT
time-series model (src/models/MSPT.py and src/models/MSPT_0525.py).

The tensor code is shallowly embedded over lists:
* a gate matrix is a `List (List ℚ)` (one row per sample, one column per expert);
* expert inputs/outputs are `List (List ℝ)` rows (the trailing tensor dimensions
  of a per-sample slice are flattened into a single row index, which is faithful
  for all the elementwise properties proved here);
* `torch.exp` / `torch.log` are `Real.exp` / `Real.log` (exact real arithmetic;
  float rounding is abstracted away, float *control flow* such as the `== 0`
  floor test in `combine` is embedded exactly);
* the float64 constant `np.finfo(float).eps` is the machine epsilon `2⁻⁵²`.
-/

namespace MSPT

/-! ### Generic list helpers -/

/-- Split a list into consecutive chunks of the given sizes
(the embedding of `torch.split(xs, part_sizes, dim=0)`). -/
def splitBy : List ℕ → List α → List (List α)
  | [], _ => []
  | n :: ns, xs => xs.take n :: splitBy ns (xs.drop n)

theorem splitBy_length (ns : List ℕ) (xs : List α) : (splitBy ns xs).length = ns.length := by
  induction ns generalizing xs with
  | nil => rfl
  | cons n ns ih => simp [splitBy, ih]

theorem splitBy_flatten (ls : List (List α)) :
    splitBy (ls.map List.length) ls.flatten = ls := by
  induction ls with
  | nil => rfl
  | cons l ls ih =>
      simp only [List.map_cons, List.flatten_cons, splitBy, List.take_left, List.drop_left, ih]

theorem zip_flatMap_eq (is : List ι) (f : ι → List α) (g : ι → List β)
    (h : ∀ i ∈ is, (f i).length = (g i).length) :
    (is.flatMap f).zip (is.flatMap g) = is.flatMap (fun i => (f i).zip (g i)) := by
  induction is with
  | nil => rfl
  | cons i is ih =>
      simp only [List.flatMap_cons]
      rw [List.zip_append (h i (by simp)), ih (fun j hj => h j (by simp [hj]))]

theorem pairwise_flatMap_range {R : α → α → Prop} (f : ℕ → List α) (n : ℕ)
    (hin : ∀ i, (f i).Pairwise R)
    (hcross : ∀ i j, i < j → ∀ a ∈ f i, ∀ b ∈ f j, R a b) :
    ((List.range n).flatMap f).Pairwise R := by
  induction n with
  | zero => simp
  | succ n ih =>
      rw [List.range_succ, List.flatMap_append]
      rw [List.pairwise_append]
      refine ⟨ih, by simpa using hin n, ?_⟩
      intro a ha b hb
      obtain ⟨i, hi, hai⟩ := List.mem_flatMap.1 ha
      exact hcross i n (List.mem_range.1 hi) a hai b (by simpa using hb)

theorem sum_map_eq_single {M : Type} [AddCommMonoid M] (l : List ℕ) (hnd : l.Nodup)
    (i : ℕ) (hi : i ∈ l) (h : ℕ → M) (hz : ∀ e ∈ l, e ≠ i → h e = 0) :
    (l.map h).sum = h i := by
  induction l with
  | nil => cases hi
  | cons a l ih =>
      rcases List.mem_cons.1 hi with rfl | hi'
      · have hz' : ∀ x ∈ l.map h, x = 0 := by
          intro x hx
          obtain ⟨e, he, rfl⟩ := List.mem_map.1 hx
          exact hz e (List.mem_cons_of_mem _ he)
            (fun hea => (List.nodup_cons.1 hnd).1 (hea ▸ he))
        simp [List.sum_eq_zero hz']
      · have ha : h a = 0 := hz a (by simp) (fun hai => (List.nodup_cons.1 hnd).1 (hai ▸ hi'))
        simp only [List.map_cons, List.sum_cons, ha, zero_add]
        exact ih (List.nodup_cons.1 hnd).2 hi' (fun e he => hz e (by simp [he]))

theorem sum_map_ite_filter {M : Type} [AddCommMonoid M] (l : List ℕ) (p : ℕ → Prop)
    [DecidablePred p] (t : ℕ → M) :
    (l.map (fun e => if p e then t e else 0)).sum = ((l.filter (fun e => p e)).map t).sum := by
  induction l with
  | nil => rfl
  | cons a l ih =>
      by_cases h : p a <;> simp [List.filter_cons, h, ih]

/-! ### Gate matrices and the SparseDispatcher index bookkeeping

`SparseDispatcher.__init__` (src/models/MSPT.py, lines 47-60) computes
`torch.nonzero(gates)` — the `(sample, expert)` pairs with nonzero gate, in
row-major (sample-major) order — and then `.sort(0)`-sorts the expert column,
carrying the sample indices along with a stable argsort of that column.  The
column sort with stable tie-breaking is embedded as a stable `insertionSort` of
the row-major pair list by the lexicographic order (expert first, sample second).
`MultiScalePeriodicPatchEmbedding.dispatcher` (src/models/MSPT_0525.py, lines
121-130) performs the identical computation. -/

/-- Entry `(b, e)` of a gate matrix; out-of-range reads are `0`, matching the
fact that a tensor has no entries outside its shape. -/
def gateAt (g : List (List ℚ)) (b e : ℕ) : ℚ := (g.getD b []).getD e 0

/-- Row-major enumeration of the nonzero gate entries: `torch.nonzero(gates)`. -/
def nonzeroPairs (g : List (List ℚ)) (E : ℕ) : List (ℕ × ℕ) :=
  (List.range g.length).flatMap (fun b =>
    ((List.range E).filter (fun e => gateAt g b e ≠ 0)).map (fun e => (b, e)))

/-- Lexicographic order on `(sample, expert)` pairs with the expert index as
primary key: the order produced by sorting the expert column of
`torch.nonzero(gates)` with stable ties. -/
def expertLex (p q : ℕ × ℕ) : Prop := p.2 < q.2 ∨ (p.2 = q.2 ∧ p.1 ≤ q.1)

instance : DecidableRel expertLex := fun p q => by
  unfold expertLex
  infer_instance

instance : IsTotal (ℕ × ℕ) expertLex where
  total p q := by
    unfold expertLex
    rcases Nat.lt_trichotomy p.2 q.2 with h | h | h
    · exact Or.inl (Or.inl h)
    · rcases Nat.le_total p.1 q.1 with h' | h'
      · exact Or.inl (Or.inr ⟨h, h'⟩)
      · exact Or.inr (Or.inr ⟨h.symm, h'⟩)
    · exact Or.inr (Or.inl h)

instance : IsTrans (ℕ × ℕ) expertLex where
  trans p q r hpq hqr := by
    rcases hpq with h | ⟨h, h'⟩ <;> rcases hqr with h2 | ⟨h2, h2'⟩
    · exact Or.inl (h.trans h2)
    · exact Or.inl (h2 ▸ h)
    · exact Or.inl (h ▸ h2)
    · exact Or.inr ⟨h.trans h2, h'.trans h2'⟩

instance : IsAntisymm (ℕ × ℕ) expertLex where
  antisymm p q hpq hqp := by
    rcases hpq with h | ⟨h, h'⟩ <;> rcases hqp with h2 | ⟨h2, h2'⟩
    · exact absurd (h.trans h2) (lt_irrefl _)
    · exact absurd h (h2 ▸ lt_irrefl _)
    · exact absurd h2 (h ▸ lt_irrefl _)
    · exact Prod.ext (Nat.le_antisymm h' h2') h

/-- Nonzero `(sample, expert)` pairs sorted with the expert index as primary key
and the original sample order as secondary key: the order in which
`SparseDispatcher` processes routed samples. -/
def sortedPairs (g : List (List ℚ)) (E : ℕ) : List (ℕ × ℕ) :=
  List.insertionSort expertLex (nonzeroPairs g E)

/-- Samples routed to expert `e`, in original batch order. -/
def expertRows (g : List (List ℚ)) (e : ℕ) : List ℕ :=
  (List.range g.length).filter (fun b => gateAt g b e ≠ 0)

theorem mem_expertRows {g : List (List ℚ)} {e b : ℕ} :
    b ∈ expertRows g e ↔ b < g.length ∧ gateAt g b e ≠ 0 := by
  simp [expertRows, List.mem_filter, List.mem_range]

/-- Expert-major form of the sorted pair list: for each expert in order, the
samples routed to it in original batch order. -/
theorem sortedPairs_eq (g : List (List ℚ)) (E : ℕ) :
    sortedPairs g E = (List.range E).flatMap (fun e => (expertRows g e).map (fun b => (b, e))) := by
  have hpairlt : ∀ p q : ℕ × ℕ, (p.2 < q.2 ∨ (p.2 = q.2 ∧ p.1 < q.1)) → expertLex p q := by
    intro p q h
    rcases h with h | ⟨h, h'⟩
    · exact Or.inl h
    · exact Or.inr ⟨h, Nat.le_of_lt h'⟩
  -- the expert-major list is strictly sorted for the (expert, sample) lex order
  have hsortedR : ((List.range E).flatMap
      (fun e => (expertRows g e).map (fun b => (b, e)))).Pairwise
      (fun p q => p.2 < q.2 ∨ (p.2 = q.2 ∧ p.1 < q.1)) := by
    apply pairwise_flatMap_range
    · intro e
      rw [List.pairwise_map]
      exact ((List.pairwise_lt_range g.length).filter _).imp (fun h => Or.inr ⟨rfl, h⟩)
    · intro i j hij a ha b hb
      obtain ⟨a', _, rfl⟩ := List.mem_map.1 ha
      obtain ⟨b', _, rfl⟩ := List.mem_map.1 hb
      exact Or.inl hij
  -- the row-major list is strictly sorted for the (sample, expert) lex order
  have hsortedL : (nonzeroPairs g E).Pairwise
      (fun p q : ℕ × ℕ => p.1 < q.1 ∨ (p.1 = q.1 ∧ p.2 < q.2)) := by
    apply pairwise_flatMap_range
    · intro b
      rw [List.pairwise_map]
      exact ((List.pairwise_lt_range E).filter _).imp (fun h => Or.inr ⟨rfl, h⟩)
    · intro i j hij a ha b hb
      obtain ⟨a', _, rfl⟩ := List.mem_map.1 ha
      obtain ⟨b', _, rfl⟩ := List.mem_map.1 hb
      exact Or.inl hij
  have hndL : (nonzeroPairs g E).Nodup :=
    hsortedL.imp (by
      rintro p q (h | ⟨h, h'⟩) rfl
      · exact lt_irrefl _ h
      · exact lt_irrefl _ h')
  have hndR : ((List.range E).flatMap
      (fun e => (expertRows g e).map (fun b => (b, e)))).Nodup :=
    hsortedR.imp (by
      rintro p q (h | ⟨h, h'⟩) rfl
      · exact lt_irrefl _ h
      · exact lt_irrefl _ h')
  have hmem : ∀ p : ℕ × ℕ, p ∈ nonzeroPairs g E ↔
      p ∈ (List.range E).flatMap (fun e => (expertRows g e).map (fun b => (b, e))) := by
    intro p
    simp only [nonzeroPairs, List.mem_flatMap, List.mem_map, List.mem_filter, List.mem_range,
      expertRows]
    constructor
    · rintro ⟨b, hb, e, ⟨he, hge⟩, rfl⟩
      exact ⟨e, he, b, ⟨hb, hge⟩, rfl⟩
    · rintro ⟨e, he, b, ⟨hb, hge⟩, rfl⟩
      exact ⟨b, hb, e, ⟨he, hge⟩, rfl⟩
  have hperm : (sortedPairs g E).Perm
      ((List.range E).flatMap (fun e => (expertRows g e).map (fun b => (b, e)))) := by
    refine (List.perm_insertionSort expertLex (nonzeroPairs g E)).trans ?_
    exact (List.perm_ext_iff_of_nodup hndL hndR).2 hmem
  exact List.eq_of_perm_of_sorted hperm
    (List.sorted_insertionSort expertLex (nonzeroPairs g E))
    (hsortedR.imp (hpairlt _ _))

theorem mem_sortedPairs {g : List (List ℚ)} {E : ℕ} {p : ℕ × ℕ} :
    p ∈ sortedPairs g E ↔ p.1 < g.length ∧ p.2 < E ∧ gateAt g p.1 p.2 ≠ 0 := by
  rw [sortedPairs_eq]
  simp only [List.mem_flatMap, List.mem_map, List.mem_range, mem_expertRows]
  constructor
  · rintro ⟨e, he, b, ⟨hb, hge⟩, rfl⟩
    exact ⟨hb, he, hge⟩
  · rintro ⟨hb, he, hge⟩
    exact ⟨p.2, he, p.1, ⟨hb, hge⟩, rfl⟩

/-- Originating sample index of each routed slot: `self._batch_index`. -/
def batchIndexList (g : List (List ℚ)) (E : ℕ) : List ℕ :=
  (sortedPairs g E).map Prod.fst

/-- Gate weight of each routed slot, in dispatch order: `self._nonzero_gates`
(`torch.gather(gates[self._batch_index], 1, self._expert_index)`). -/
def nonzeroGatesList (g : List (List ℚ)) (E : ℕ) : List ℚ :=
  (sortedPairs g E).map (fun p => gateAt g p.1 p.2)

/-- Routed-sample count of each expert: `self._part_sizes = (gates > 0).sum(0)`.
Note the source tests `> 0` here although the slots were enumerated with
`torch.nonzero` (`≠ 0`); the two agree on the nonnegative gate matrices the
model produces. -/
def partSizes (g : List (List ℚ)) (E : ℕ) : List ℕ :=
  (List.range E).map (fun e =>
    ((List.range g.length).filter (fun b => 0 < gateAt g b e)).length)

/-- Embedding of `SparseDispatcher.dispatch` (src/models/MSPT.py, lines 62-66)
and of `MultiScalePeriodicPatchEmbedding.dispatcher` (src/models/MSPT_0525.py,
lines 121-130): gather the rows of `inp` at the routed sample indices and split
them into one sub-batch per expert. -/
def dispatchList (g : List (List ℚ)) (E : ℕ) (inp : List (List ℝ)) : List (List (List ℝ)) :=
  splitBy (partSizes g E) ((batchIndexList g E).map (fun b => inp.getD b []))

/-- With a nonnegative gate matrix, dispatch sends to each expert exactly the
samples whose gate entry for it is nonzero, in original batch order. -/
theorem dispatchList_eq (g : List (List ℚ)) (E : ℕ) (inp : List (List ℝ))
    (hnn : ∀ b < g.length, ∀ e < E, 0 ≤ gateAt g b e) :
    dispatchList g E inp = (List.range E).map (fun e =>
      (expertRows g e).map (fun b => inp.getD b [])) := by
  unfold dispatchList
  have hbatch : (batchIndexList g E).map (fun b => inp.getD b []) =
      ((List.range E).map (fun e => (expertRows g e).map (fun b => inp.getD b []))).flatten := by
    rw [batchIndexList, sortedPairs_eq, List.map_map, List.map_flatMap, ← List.flatMap_def]
    congr 1
    funext e
    rw [List.map_map]
    rfl
  have hsizes : partSizes g E =
      ((List.range E).map (fun e => (expertRows g e).map (fun b => inp.getD b []))).map
        List.length := by
    rw [partSizes, List.map_map]
    apply List.map_congr_left
    intro e he
    simp only [Function.comp_apply, List.length_map]
    unfold expertRows
    congr 1
    apply List.filter_congr
    intro b hb
    have h0 := hnn b (List.mem_range.1 hb) e (List.mem_range.1 he)
    simp only [decide_eq_decide]
    constructor
    · intro h
      exact ne_of_gt h
    · intro h
      exact lt_of_le_of_ne h0 (Ne.symm h)
  rw [hbatch, hsizes, splitBy_flatten]

/-! ### The combine operation (Sparse Combiner)

`SparseDispatcher.combine` (src/models/MSPT.py, lines 68-81) and
`CrossScalePeriodicFeatureAggregator.forward` (src/models/MSPT_0525.py, lines
238-259) are the same computation: concatenate the per-expert outputs in
dispatch order, exponentiate elementwise, scale every routed slot by its gate
weight, `index_add` the slots back into a zero tensor at the originating sample
indices, replace every cell that is still exactly `0` by `np.finfo(float).eps`,
and take the elementwise natural logarithm. -/

/-- Exact value of the floor constant `np.finfo(float).eps` used by `combine`:
the float64 machine epsilon `2⁻⁵² = 2.220446049250313e-16`. -/
def npFloat64Eps : ℚ := 1 / 2 ^ 52

/-- Value accumulated by `zeros.index_add(0, self._batch_index, stitched)` at
cell `(b, j)`: the sum, over the routed slots that originate from sample `b`,
of `gate weight * exp(expert output)`. -/
noncomputable def accumCell (g : List (List ℚ)) (E : ℕ) (eo : List (List (List ℝ)))
    (b j : ℕ) : ℝ :=
  (((sortedPairs g E).zip eo.flatten).map
    (fun pr => if pr.1.1 = b then (gateAt g pr.1.1 pr.1.2 : ℝ) * Real.exp (pr.2.getD j 0)
      else 0)).sum

/-- Cell `(b, j)` of the output of `combine`: the zero-floor substitution
`combined[combined == 0] = np.finfo(float).eps` followed by `combined.log()`. -/
noncomputable def combineCell (g : List (List ℚ)) (E : ℕ) (eo : List (List (List ℝ)))
    (b j : ℕ) : ℝ :=
  Real.log (if accumCell g E eo b j = 0 then ((npFloat64Eps : ℚ) : ℝ)
    else accumCell g E eo b j)

/-- Output of `combine` as a matrix: one row per original sample (the zero
tensor is allocated with `gates.size(0)` rows), `rowLen` columns (the flattened
trailing shape `expert_out[-1].size(1) × expert_out[-1].size(2)`, which is
carried by the tensor metadata even for empty sub-batches and is therefore a
parameter here). -/
noncomputable def combineList (g : List (List ℚ)) (E rowLen : ℕ)
    (eo : List (List (List ℝ))) : List (List ℝ) :=
  (List.range g.length).map (fun b => (List.range rowLen).map (combineCell g E eo b))

/-- When the expert-output collection assigns to each expert one output row per
routed sample (row `f e b` for sample `b`), the accumulated cell `(b, j)` is the
gate-weighted sum of `exp` of the routed experts' outputs for sample `b`. -/
theorem accumCell_eq (g : List (List ℚ)) (E : ℕ) (f : ℕ → ℕ → List ℝ)
    (eo : List (List (List ℝ))) (b j : ℕ)
    (heo : eo = (List.range E).map (fun e => (expertRows g e).map (f e))) :
    accumCell g E eo b j =
      (((List.range E).filter (fun e => gateAt g b e ≠ 0)).map
        (fun e => (gateAt g b e : ℝ) * Real.exp ((f e b).getD j 0))).sum := by
  subst heo
  unfold accumCell
  rw [sortedPairs_eq, ← List.flatMap_def,
    zip_flatMap_eq _ _ _ (fun e _ => by simp),
    List.map_flatMap, List.flatMap_def, List.sum_flatten, List.map_map]
  have hinner : ∀ e ∈ List.range E,
      (List.sum ∘ fun e => List.map
          (fun pr => if pr.1.1 = b then (gateAt g pr.1.1 pr.1.2 : ℝ) * Real.exp (pr.2.getD j 0)
            else 0)
          (((expertRows g e).map (fun b' => (b', e))).zip ((expertRows g e).map (f e)))) e =
      (if gateAt g b e ≠ 0 then (gateAt g b e : ℝ) * Real.exp ((f e b).getD j 0) else 0) := by
    intro e _
    simp only [Function.comp_apply, List.zip_map', List.map_map]
    have hrw : ((fun pr : (ℕ × ℕ) × List ℝ =>
        if pr.1.1 = b then (gateAt g pr.1.1 pr.1.2 : ℝ) * Real.exp (pr.2.getD j 0) else 0) ∘
          fun a => ((a, e), f e a)) =
        fun b' => if b' = b then (gateAt g b' e : ℝ) * Real.exp ((f e b').getD j 0) else 0 := rfl
    rw [hrw]
    by_cases hb : gateAt g b e ≠ 0
    · have hbmem : b ∈ expertRows g e := by
        refine mem_expertRows.2 ⟨?_, hb⟩
        by_contra hbl
        apply hb
        simp [gateAt, List.getD, List.getElem?_eq_none (Nat.le_of_not_lt hbl)]
      rw [sum_map_eq_single (expertRows g e)
        (((List.pairwise_lt_range g.length).filter _).imp Nat.ne_of_lt) b hbmem]
      · simp [hb]
      · intro e' _ he'
        simp [he']
    · push_neg at hb
      have hz : ∀ x ∈ (expertRows g e).map
          (fun b' => if b' = b then (gateAt g b' e : ℝ) * Real.exp ((f e b').getD j 0) else 0),
          x = 0 := by
        intro x hx
        obtain ⟨b', hb', rfl⟩ := List.mem_map.1 hx
        by_cases hbb : b' = b
        · subst hbb
          exact absurd hb (mem_expertRows.1 hb').2
        · simp [hbb]
      rw [if_neg (by simp [hb])]
      exact List.sum_eq_zero hz
  rw [List.map_congr_left hinner, sum_map_ite_filter]

/-- Unconditional nonnegativity of the accumulated cells on a nonnegative gate
matrix (gate weights are nonnegative and `Real.exp` is positive). -/
theorem accumCell_nonneg (g : List (List ℚ)) (E : ℕ) (eo : List (List (List ℝ))) (b j : ℕ)
    (hnn : ∀ b' < g.length, ∀ e' < E, 0 ≤ gateAt g b' e') :
    0 ≤ accumCell g E eo b j := by
  apply List.sum_nonneg
  intro x hx
  obtain ⟨pr, hpr, rfl⟩ := List.mem_map.1 hx
  by_cases hb : pr.1.1 = b
  · have hmem := mem_sortedPairs.1 (List.of_mem_zip hpr).1
    have h0 : (0 : ℝ) ≤ (gateAt g pr.1.1 pr.1.2 : ℝ) := by
      exact_mod_cast hnn pr.1.1 hmem.1 pr.1.2 hmem.2.1
    simp only [hb, if_pos rfl]
    exact mul_nonneg (by simpa [hb] using h0) (Real.exp_pos _).le
  · simp [hb]

/-- A sample whose gate row is all zero receives no routed slot, so its
accumulated cells are exactly `0`. -/
theorem accumCell_of_zero_row (g : List (List ℚ)) (E : ℕ) (eo : List (List (List ℝ)))
    (b j : ℕ) (hz : ∀ e < E, gateAt g b e = 0) :
    accumCell g E eo b j = 0 := by
  apply List.sum_eq_zero
  intro x hx
  obtain ⟨pr, hpr, rfl⟩ := List.mem_map.1 hx
  by_cases hb : pr.1.1 = b
  · have hmem := mem_sortedPairs.1 (List.of_mem_zip hpr).1
    exact absurd (hz pr.1.2 hmem.2.1) (hb ▸ hmem.2.2)
  · simp [hb]

/-- Cells of an all-zero gate row are floored to `np.finfo(float).eps` and the
output row is `log eps` everywhere. -/
theorem combineCell_of_zero_row (g : List (List ℚ)) (E : ℕ) (eo : List (List (List ℝ)))
    (b j : ℕ) (hz : ∀ e < E, gateAt g b e = 0) :
    combineCell g E eo b j = Real.log ((npFloat64Eps : ℚ) : ℝ) := by
  rw [combineCell, accumCell_of_zero_row g E eo b j hz, if_pos rfl]

/-! ### The noisy top-K gate

`EncoderStack.top_k_gating` (src/models/MSPT.py, lines 315-336): in training
mode the logits are the clean scores plus Gaussian noise scaled by
`softplus(x @ w_noise) + noise_epsilon`; in inference mode the clean scores are
used unchanged.  The random draw makes the training-mode logits an arbitrary
perturbation of the clean scores, so the noisy score vector is abstracted as an
arbitrary second argument.  The selection `logits.topk(self.k + 1)` followed by
`[:, :self.k]`, `softmax`, and `scatter` into a zero row is embedded exactly;
`torch.topk` raises when `k + 1` exceeds the number of candidates, which is
embedded as `none`. -/

/-- Preference order of the top-k selection on a score row: `i` precedes `j`
when its score is larger, ties broken towards the smaller index (the stable
order used by `torch.topk`). -/
def idxLe (row : List ℚ) (i j : ℕ) : Prop :=
  row.getD j 0 < row.getD i 0 ∨ (row.getD i 0 = row.getD j 0 ∧ i ≤ j)

instance (row : List ℚ) : DecidableRel (idxLe row) := fun i j => by
  unfold idxLe
  infer_instance

instance (row : List ℚ) : IsTotal ℕ (idxLe row) where
  total i j := by
    unfold idxLe
    rcases lt_trichotomy (row.getD i 0) (row.getD j 0) with h | h | h
    · exact Or.inr (Or.inl h)
    · rcases Nat.le_total i j with h' | h'
      · exact Or.inl (Or.inr ⟨h, h'⟩)
      · exact Or.inr (Or.inr ⟨h.symm, h'⟩)
    · exact Or.inl (Or.inl h)

instance (row : List ℚ) : IsTrans ℕ (idxLe row) where
  trans i j k hij hjk := by
    rcases hij with h | ⟨h, h'⟩ <;> rcases hjk with h2 | ⟨h2, h2'⟩
    · exact Or.inl (h2.trans h)
    · exact Or.inl (lt_of_eq_of_lt h2.symm h)
    · exact Or.inl (lt_of_lt_of_eq h2 h.symm)
    · exact Or.inr ⟨h.trans h2, h'.trans h2'⟩

/-- Indices of the row sorted by decreasing score (ties by increasing index):
the index column that `torch.topk` draws its first `m` entries from. -/
def argsortTop (row : List ℚ) : List ℕ :=
  List.insertionSort (idxLe row) (List.range row.length)

/-- Indices returned by `torch.topk(row, m)` (for `m` within range). -/
def topkSel (row : List ℚ) (m : ℕ) : List ℕ := (argsortTop row).take m

/-- Softmax over a list of reals, as applied by `top_k_logits.softmax(1)`. -/
noncomputable def softmaxR (l : List ℝ) : List ℝ :=
  l.map (fun x => Real.exp x / (l.map Real.exp).sum)

/-- Embedding of `zeros.scatter(1, top_k_indices, top_k_gates)`: entry `e`
receives the value whose index entry equals `e` (index lists produced by
`topk` have no duplicates, so first-match equals the last-write-wins semantics
of `scatter`), and `0` otherwise. -/
def scatterVal : List ℕ → List ℝ → ℕ → ℝ
  | [], _, _ => 0
  | _ :: _, [], _ => 0
  | i :: is, v :: vs, e => if i = e then v else scatterVal is vs e

/-- Gate row built by `top_k_gating` from the selected logits row:
`topk(k+1)`, truncate to the first `k`, softmax over the kept logits, scatter
into a zero row of length `num_candidates`. -/
noncomputable def gateRowCore (logits : List ℚ) (k : ℕ) : List ℝ :=
  (List.range logits.length).map
    (scatterVal ((topkSel logits (k + 1)).take k)
      (softmaxR (((topkSel logits (k + 1)).take k).map (fun i => ((logits.getD i 0 : ℚ) : ℝ)))))

/-- Gate row of `top_k_gating`; `none` embeds the `RuntimeError` that
`logits.topk(self.k + 1)` raises when `k + 1` exceeds the candidate count. -/
noncomputable def gateRow? (logits : List ℚ) (k : ℕ) : Option (List ℝ) :=
  if k + 1 ≤ logits.length then some (gateRowCore logits k) else none

/-- Logits used by `top_k_gating`: the noisy scores when training, the clean
scores at inference time. -/
def gatingLogits (clean noisy : List ℚ) (train : Bool) : List ℚ :=
  if train then noisy else clean

/-- Embedding of `EncoderStack.top_k_gating` as a whole. -/
noncomputable def topKGating (clean noisy : List ℚ) (train : Bool) (k : ℕ) : Option (List ℝ) :=
  gateRow? (gatingLogits clean noisy train) k

/-- Gate row of `MultiScalePeriodicPatchEmbedding.afno1d_for_peroid_weights`
(src/models/MSPT_0525.py, lines 108-119): direct `topk(k)` (no `k+1`
lookahead), softmax, scatter. -/
noncomputable def afnoGateRowCore (weights : List ℚ) (k : ℕ) : List ℝ :=
  (List.range weights.length).map
    (scatterVal (topkSel weights k)
      (softmaxR ((topkSel weights k).map (fun i => ((weights.getD i 0 : ℚ) : ℝ)))))

/-- Gate row of `afno1d_for_peroid_weights`, `none` when `topk(k)` would raise. -/
noncomputable def afnoGateRow? (weights : List ℚ) (k : ℕ) : Option (List ℝ) :=
  if k ≤ weights.length then some (afnoGateRowCore weights k) else none

/-- Channel-averaged spectral weights used by `afno1d_for_peroid_weights`: the
training branch adds scaled Gaussian noise before the channel mean, the
inference branch averages the clean magnitudes; as in `topKGating` the noisy
variant is abstracted as an arbitrary second argument. -/
def afnoWeights (cleanW noisyW : List ℚ) (training : Bool) : List ℚ :=
  if training then noisyW else cleanW

/-- Embedding of `afno1d_for_peroid_weights` from the spectral weights on. -/
noncomputable def afnoGating (cleanW noisyW : List ℚ) (training : Bool) (k : ℕ) :
    Option (List ℝ) :=
  afnoGateRow? (afnoWeights cleanW noisyW training) k

theorem take_topkSel (row : List ℚ) (k : ℕ) :
    (topkSel row (k + 1)).take k = topkSel row k := by
  rw [topkSel, topkSel, List.take_take]
  congr 1
  omega

theorem softmaxR_length (l : List ℝ) : (softmaxR l).length = l.length :=
  List.length_map _ _

theorem softmaxR_pos (l : List ℝ) (x : ℝ) (hx : x ∈ softmaxR l) : 0 < x := by
  obtain ⟨y, hy, rfl⟩ := List.mem_map.1 hx
  have hS : 0 < (l.map Real.exp).sum := by
    apply List.sum_pos
    · intro z hz
      obtain ⟨w, _, rfl⟩ := List.mem_map.1 hz
      exact Real.exp_pos w
    · simpa using List.ne_nil_of_mem hy
  exact div_pos (Real.exp_pos y) hS

theorem softmaxR_sum (l : List ℝ) (hl : l ≠ []) : (softmaxR l).sum = 1 := by
  have hS : 0 < (l.map Real.exp).sum := by
    apply List.sum_pos
    · intro z hz
      obtain ⟨w, _, rfl⟩ := List.mem_map.1 hz
      exact Real.exp_pos w
    · simpa using hl
  unfold softmaxR
  simp only [div_eq_mul_inv]
  rw [List.sum_map_mul_right l Real.exp ((l.map Real.exp).sum)⁻¹]
  exact mul_inv_cancel₀ (ne_of_gt hS)

theorem scatterVal_of_not_mem (sel : List ℕ) (vs : List ℝ) (e : ℕ) (h : e ∉ sel) :
    scatterVal sel vs e = 0 := by
  induction sel generalizing vs with
  | nil => rfl
  | cons i is ih =>
      cases vs with
      | nil => rfl
      | cons v vs' =>
          rw [scatterVal, if_neg (fun hh => h (List.mem_cons.2 (Or.inl hh.symm)))]
          exact ih vs' (fun he => h (List.mem_cons_of_mem _ he))

theorem scatterVal_pos (sel : List ℕ) (vs : List ℝ) (e : ℕ) (he : e ∈ sel)
    (hlen : sel.length = vs.length) (hv : ∀ v ∈ vs, 0 < v) : 0 < scatterVal sel vs e := by
  induction sel generalizing vs with
  | nil => cases he
  | cons i is ih =>
      cases vs with
      | nil => simp at hlen
      | cons v vs' =>
          rw [scatterVal]
          by_cases hie : i = e
          · rw [if_pos hie]
            exact hv v (by simp)
          · rw [if_neg hie]
            exact ih vs' ((List.mem_cons.1 he).resolve_left (fun h => hie h.symm))
              (by simpa using hlen) (fun w hw => hv w (List.mem_cons_of_mem _ hw))

theorem sum_map_ite_add {M : Type} [AddCommMonoid M] (l : List ℕ) (hnd : l.Nodup) (i : ℕ)
    (hi : i ∈ l) (v : M) (g : ℕ → M) (hgi : g i = 0) :
    (l.map (fun e => if i = e then v else g e)).sum = v + (l.map g).sum := by
  induction l with
  | nil => cases hi
  | cons a l ih =>
      rcases List.mem_cons.1 hi with rfl | hi'
      · have hnotin : i ∉ l := (List.nodup_cons.1 hnd).1
        have hcong : l.map (fun e => if i = e then v else g e) = l.map g :=
          List.map_congr_left (fun e he => if_neg (fun hie => hnotin (by rw [hie]; exact he)))
        simp [hcong, hgi]
      · have hai : ¬ (i = a) := fun h => (List.nodup_cons.1 hnd).1 (h ▸ hi')
        simp only [List.map_cons, List.sum_cons, if_neg hai]
        rw [ih (List.nodup_cons.1 hnd).2 hi', add_left_comm]

theorem sum_range_scatterVal (E : ℕ) (sel : List ℕ) (vs : List ℝ) (hnd : sel.Nodup)
    (hsub : ∀ i ∈ sel, i < E) (hlen : sel.length = vs.length) :
    ((List.range E).map (scatterVal sel vs)).sum = vs.sum := by
  induction sel generalizing vs with
  | nil =>
      cases vs with
      | nil =>
          have hz : ∀ x ∈ (List.range E).map (scatterVal [] []), x = 0 := by
            intro x hx
            obtain ⟨e, _, rfl⟩ := List.mem_map.1 hx
            rfl
          simp [List.sum_eq_zero hz]
      | cons v vs' => simp at hlen
  | cons i is ih =>
      cases vs with
      | nil => simp at hlen
      | cons v vs' =>
          have hpt : ∀ e ∈ List.range E, scatterVal (i :: is) (v :: vs') e =
              (if i = e then v else scatterVal is vs' e) := fun e _ => rfl
          rw [List.map_congr_left hpt,
            sum_map_ite_add (List.range E) (List.nodup_range E) i
              (List.mem_range.2 (hsub i (by simp))) v (scatterVal is vs')
              (scatterVal_of_not_mem is vs' i (List.nodup_cons.1 hnd).1),
            ih vs' (List.nodup_cons.1 hnd).2 (fun a ha => hsub a (List.mem_cons_of_mem _ ha))
              (by simpa using hlen)]
          simp

theorem argsortTop_perm (row : List ℚ) : (argsortTop row).Perm (List.range row.length) :=
  List.perm_insertionSort (idxLe row) (List.range row.length)

theorem topkSel_nodup (row : List ℚ) (m : ℕ) : (topkSel row m).Nodup :=
  (List.take_sublist m (argsortTop row)).nodup
    ((argsortTop_perm row).nodup_iff.2 (List.nodup_range _))

theorem topkSel_length (row : List ℚ) (m : ℕ) (hm : m ≤ row.length) :
    (topkSel row m).length = m := by
  rw [topkSel, List.length_take, argsortTop, List.length_insertionSort, List.length_range]
  exact min_eq_left hm

theorem topkSel_lt (row : List ℚ) (m : ℕ) (i : ℕ) (hi : i ∈ topkSel row m) : i < row.length :=
  List.mem_range.1 ((argsortTop_perm row).mem_iff.1 (List.mem_of_mem_take hi))

/-- Maximality of the top-k selection: every selected index beats every
unselected in-range index, either strictly by score or by the smaller-index
tie-break. -/
theorem topkSel_max (row : List ℚ) (m : ℕ) (i j : ℕ) (hi : i ∈ topkSel row m)
    (hj : j < row.length) (hjn : j ∉ topkSel row m) :
    row.getD j 0 < row.getD i 0 ∨ (row.getD i 0 = row.getD j 0 ∧ i < j) := by
  have hsorted : List.Pairwise (idxLe row) (argsortTop row) :=
    List.sorted_insertionSort (idxLe row) (List.range row.length)
  have hsplit := List.take_append_drop m (argsortTop row)
  have hjarg : j ∈ argsortTop row := (argsortTop_perm row).mem_iff.2 (List.mem_range.2 hj)
  have hjdrop : j ∈ (argsortTop row).drop m := by
    rcases List.mem_append.1 (hsplit ▸ hjarg) with h | h
    · exact absurd h hjn
    · exact h
  have hpw := (List.pairwise_append.1 (hsplit ▸ hsorted)).2.2
  have hij : idxLe row i j := hpw i hi j hjdrop
  have hne : i ≠ j := fun h => hjn (h ▸ hi)
  rcases hij with h | ⟨h, h'⟩
  · exact Or.inl h
  · exact Or.inr ⟨h, lt_of_le_of_ne h' hne⟩

theorem gateRowCore_getD (logits : List ℚ) (k : ℕ) (e : ℕ) (he : e < logits.length) :
    (gateRowCore logits k).getD e 0 =
      scatterVal (topkSel logits k)
        (softmaxR ((topkSel logits k).map (fun i => ((logits.getD i 0 : ℚ) : ℝ)))) e := by
  rw [gateRowCore, take_topkSel,
    List.getD_eq_getElem _ _ (by simpa using he), List.getElem_map, List.getElem_range]

theorem afnoGateRowCore_getD (weights : List ℚ) (k : ℕ) (e : ℕ) (he : e < weights.length) :
    (afnoGateRowCore weights k).getD e 0 =
      scatterVal (topkSel weights k)
        (softmaxR ((topkSel weights k).map (fun i => ((weights.getD i 0 : ℚ) : ℝ)))) e := by
  rw [afnoGateRowCore,
    List.getD_eq_getElem _ _ (by simpa using he), List.getElem_map, List.getElem_range]

/-- The two gating variants build the same row from the same score row:
truncating `topk(k+1)` to its first `k` entries (MSPT.py) equals taking
`topk(k)` directly (MSPT_0525.py). -/
theorem gateRowCore_eq_afno (l : List ℚ) (k : ℕ) :
    gateRowCore l k = afnoGateRowCore l k := by
  rw [gateRowCore, take_topkSel, afnoGateRowCore]

/-- Sparsity contract of one gate row `row` built from score row `l` with
`k` experts active: the top-k selection has `k` distinct indices, the entries
there are positive, all other in-range entries are exactly zero, the row sums
to 1, and every selected index beats every unselected in-range index by score
(or by the smaller-index tie-break). -/
def sparseGateProps (l : List ℚ) (k : ℕ) (row : List ℝ) : Prop :=
  (topkSel l k).length = k ∧
  (topkSel l k).Nodup ∧
  (∀ e ∈ topkSel l k, 0 < row.getD e 0) ∧
  (∀ e < l.length, e ∉ topkSel l k → row.getD e 0 = 0) ∧
  row.sum = 1 ∧
  (∀ i ∈ topkSel l k, ∀ j < l.length, j ∉ topkSel l k →
    l.getD j 0 < l.getD i 0 ∨ (l.getD i 0 = l.getD j 0 ∧ i < j))

theorem sparseGateProps_afno (l : List ℚ) (k : ℕ) (hk : 1 ≤ k) (hkl : k ≤ l.length) :
    sparseGateProps l k (afnoGateRowCore l k) := by
  have hsel_len : (topkSel l k).length = k := topkSel_length l k hkl
  have hsel_nd : (topkSel l k).Nodup := topkSel_nodup l k
  have hsm_len : (softmaxR ((topkSel l k).map (fun i => ((l.getD i 0 : ℚ) : ℝ)))).length =
      (topkSel l k).length := by
    rw [softmaxR_length, List.length_map]
  refine ⟨hsel_len, hsel_nd, ?_, ?_, ?_, ?_⟩
  · intro e he
    rw [afnoGateRowCore_getD l k e (topkSel_lt l k e he)]
    exact scatterVal_pos _ _ e he hsm_len.symm (fun v hv => softmaxR_pos _ v hv)
  · intro e he hen
    rw [afnoGateRowCore_getD l k e he]
    exact scatterVal_of_not_mem _ _ e hen
  · rw [afnoGateRowCore,
      sum_range_scatterVal l.length (topkSel l k) _ hsel_nd (topkSel_lt l k) hsm_len.symm,
      softmaxR_sum]
    intro hnil
    rw [← List.length_eq_zero] at hnil
    rw [List.length_map, hsel_len] at hnil
    omega
  · intro i hi j hj hjn
    exact topkSel_max l k i j hi hj hjn

theorem lt_length_of_gate_ne (g : List (List ℚ)) (b e : ℕ) (h : gateAt g b e ≠ 0) :
    b < g.length := by
  by_contra hbl
  apply h
  simp [gateAt, List.getD, List.getElem?_eq_none (Nat.le_of_not_lt hbl)]

/-! ### Candidate period detection

`EncoderStack.get_patch_sizes` (src/models/MSPT.py, lines 287-291) computes
`(1 / torch.fft.rfftfreq(seq_len)[1:]).ceil().int().unique()`: the period
estimate `seq_len / i` for every nonzero frequency bin `i = 1 .. seq_len/2`
(the DC bin is dropped by `[1:]`), rounded up, deduplicated and sorted
ascending by `torch.unique`.  `MultiScalePeriodicPatchEmbedding.get_patch_sizes`
(src/models/MSPT_0525.py, lines 45-49) is identical except that it rounds with
`floor`.  The float evaluation of `1 / (i / seq_len)` is modelled as exact
rational arithmetic. -/

/-- Exact `⌈L / i⌉` on naturals (for `i ≥ 1`). -/
def periodCeil (L i : ℕ) : ℕ := (L + i - 1) / i

/-- Exact `⌊L / i⌋` on naturals. -/
def periodFloor (L i : ℕ) : ℕ := L / i

/-- Candidate patch sizes of the MSPT.py variant for sequence length `L`. -/
def patchSizesCeil (L : ℕ) : List ℕ :=
  List.insertionSort (· ≤ ·) (((List.range' 1 (L / 2)).map (periodCeil L)).dedup)

/-- Candidate patch sizes of the MSPT_0525.py variant for sequence length `L`. -/
def patchSizesFloor (L : ℕ) : List ℕ :=
  List.insertionSort (· ≤ ·) (((List.range' 1 (L / 2)).map (periodFloor L)).dedup)

/-- Number of experts: `self.num_patch_sizes = len(patch_sizes)` in
`EncoderStack.__init__`. -/
def numPatchSizes (L : ℕ) : ℕ := (patchSizesCeil L).length

/-- Embedding of the `top_k` handling in `EncoderStack.__init__`
(src/models/MSPT.py, line 257): `self.k = configs.top_k` is stored verbatim —
construction performs no validation or clamping against the candidate count. -/
def storedTopK (cfgTopK : ℕ) : ℕ := cfgTopK

/-! ### The pretraining branch of Model.forward -/

/-- Embedding of the pretraining branch of `Model.forward` (src/models/MSPT.py,
lines 504-511).  After `enc_out = self.encoder_stack(enc_out)`, the branch
executes `dec_out = self.revin(dec_out, 'inverse')` and `return dec_out, mask`;
the only assignment to `dec_out` (the head call of line 507) is commented out
in the source, so the read finds the local unbound and Python raises
`UnboundLocalError`.  Local-variable lookup is modelled with `Option`: `none`
is the unbound state, and the branch propagates it as `none` (the raised
exception) instead of a returned pair. -/
def pretrainForwardBranch (encoderStack revinInverse : List (List ℝ) → List (List ℝ))
    (enc_out : List (List ℝ)) (mask : List ℝ) : Option (List (List ℝ) × List ℝ) :=
  let encoded := encoderStack enc_out
  let dec_out : Option (List (List ℝ)) := none
  match encoded, dec_out with
  | _, none => none
  | _, some d => some (revinInverse d, mask)

/-! ### Claims -/

/-- Claim C1: for every sample routed to a nonempty set of experts, every cell
of the combined row equals the natural logarithm of the gate-weighted sum of
the elementwise exponentials of the routed experts' outputs,
`log (Σ_i w_i * exp out_i)`; the hypothesis `heo` says that each expert
produced one output row (`f e b`) per routed sample, in dispatch order. -/
theorem claim_C1_combine_logsumexp (g : List (List ℚ)) (E : ℕ) (f : ℕ → ℕ → List ℝ)
    (eo : List (List (List ℝ))) (b j : ℕ)
    (heo : eo = (List.range E).map (fun e => (expertRows g e).map (f e)))
    (hnn : ∀ b' < g.length, ∀ e' < E, 0 ≤ gateAt g b' e')
    (hroute : ∃ e, e < E ∧ 0 < gateAt g b e) :
    combineCell g E eo b j =
      Real.log ((((List.range E).filter (fun e => gateAt g b e ≠ 0)).map
        (fun e => (gateAt g b e : ℝ) * Real.exp ((f e b).getD j 0))).sum) := by
  have hacc := accumCell_eq g E f eo b j heo
  have hb : b < g.length := by
    obtain ⟨e0, _, hg0⟩ := hroute
    exact lt_length_of_gate_ne g b e0 (ne_of_gt hg0)
  have hterms : ∀ x ∈ ((List.range E).filter (fun e => gateAt g b e ≠ 0)).map
      (fun e => (gateAt g b e : ℝ) * Real.exp ((f e b).getD j 0)), 0 ≤ x := by
    intro x hx
    obtain ⟨e, he, rfl⟩ := List.mem_map.1 hx
    obtain ⟨heE, _⟩ := List.mem_filter.1 he
    have : (0 : ℝ) ≤ (gateAt g b e : ℝ) := by
      exact_mod_cast hnn b hb e (List.mem_range.1 heE)
    exact mul_nonneg this (Real.exp_pos _).le
  have hpos : 0 < accumCell g E eo b j := by
    rw [hacc]
    obtain ⟨e0, he0, hg0⟩ := hroute
    have hmem : (gateAt g b e0 : ℝ) * Real.exp ((f e0 b).getD j 0) ∈
        ((List.range E).filter (fun e => gateAt g b e ≠ 0)).map
          (fun e => (gateAt g b e : ℝ) * Real.exp ((f e b).getD j 0)) := by
      apply List.mem_map.2
      refine ⟨e0, List.mem_filter.2 ⟨List.mem_range.2 he0, by simpa using ne_of_gt hg0⟩, rfl⟩
    have htpos : 0 < (gateAt g b e0 : ℝ) * Real.exp ((f e0 b).getD j 0) :=
      mul_pos (by exact_mod_cast hg0) (Real.exp_pos _)
    exact lt_of_lt_of_le htpos (List.single_le_sum hterms _ hmem)
  rw [combineCell, if_neg (ne_of_gt hpos), hacc]

/-- Witness for C1: batch of one sample routed to both of two experts with
gate weights 1 and 2, expert `e` outputting the constant row `[e]`. -/
theorem claim_C1_witness :
    combineCell [[1, 2]] 2
      ((List.range 2).map (fun e => (expertRows [[1, 2]] e).map ((fun e _ => [(e : ℝ)]) e)))
      0 0 =
    Real.log ((((List.range 2).filter (fun e => gateAt [[1, 2]] 0 e ≠ 0)).map
      (fun e => (gateAt [[1, 2]] 0 e : ℝ) *
        Real.exp (((fun e _ => [(e : ℝ)]) e 0).getD 0 0))).sum) :=
  claim_C1_combine_logsumexp [[1, 2]] 2 (fun e _ => [(e : ℝ)]) _ 0 0 rfl
    (by decide) ⟨0, by decide⟩

/-- Claim C2: every row produced by either gating operation —
`EncoderStack.top_k_gating` (`topKGating`, `topk(k+1)` then truncate, legal
for `k+1 ≤ num_candidates`) and
`MultiScalePeriodicPatchEmbedding.afno1d_for_peroid_weights` (`afnoGating`,
direct `topk(k)`, legal already for `k ≤ num_candidates`) — has exactly K
nonzero entries, positive and summing to 1, sitting exactly at the positions
of the K largest (noisy, when training) scores with ties broken towards
smaller indices, and every other entry exactly zero (`sparseGateProps`). -/
theorem claim_C2_gate_row_sparsity (clean noisy : List ℚ) (train : Bool)
    (cleanW noisyW : List ℚ) (training : Bool) (k : ℕ) (hk : 1 ≤ k)
    (hkE : k + 1 ≤ (gatingLogits clean noisy train).length)
    (hkW : k ≤ (afnoWeights cleanW noisyW training).length) :
    topKGating clean noisy train k =
      some (gateRowCore (gatingLogits clean noisy train) k) ∧
    sparseGateProps (gatingLogits clean noisy train) k
      (gateRowCore (gatingLogits clean noisy train) k) ∧
    afnoGating cleanW noisyW training k =
      some (afnoGateRowCore (afnoWeights cleanW noisyW training) k) ∧
    sparseGateProps (afnoWeights cleanW noisyW training) k
      (afnoGateRowCore (afnoWeights cleanW noisyW training) k) := by
  refine ⟨?_, ?_, ?_, ?_⟩
  · rw [topKGating, gateRow?, if_pos hkE]
  · rw [gateRowCore_eq_afno]
    exact sparseGateProps_afno _ k hk (Nat.le_of_succ_le hkE)
  · rw [afnoGating, afnoGateRow?, if_pos hkW]
  · exact sparseGateProps_afno _ k hk hkW

/-- Witness for C2: clean scores `[3, 1, 2]` for the top_k_gating variant and
`[5, 4]` for the afno variant, inference mode, `k = 2` — which also exercises
the afno variant at `k` equal to its candidate count. -/
theorem claim_C2_witness :
    topKGating [3, 1, 2] [9, 9, 9] false 2 =
      some (gateRowCore (gatingLogits [3, 1, 2] [9, 9, 9] false) 2) ∧
    sparseGateProps (gatingLogits [3, 1, 2] [9, 9, 9] false) 2
      (gateRowCore (gatingLogits [3, 1, 2] [9, 9, 9] false) 2) ∧
    afnoGating [5, 4] [7, 7] false 2 =
      some (afnoGateRowCore (afnoWeights [5, 4] [7, 7] false) 2) ∧
    sparseGateProps (afnoWeights [5, 4] [7, 7] false) 2
      (afnoGateRowCore (afnoWeights [5, 4] [7, 7] false) 2) :=
  claim_C2_gate_row_sparsity [3, 1, 2] [9, 9, 9] false [5, 4] [7, 7] false 2
    (by decide) (by decide) (by decide)

/-- Claim C3: when every sample is routed to exactly one expert with gate
weight forced to 1 and every expert is the identity function, combining the
dispatched batch reproduces the input exactly — the index bookkeeping composed
with the exp-then-log combine inverts the partition. -/
theorem claim_C3_dispatch_combine_roundtrip (g : List (List ℚ)) (E rowLen : ℕ)
    (x : List (List ℝ))
    (hxg : x.length = g.length) (hxr : ∀ r ∈ x, r.length = rowLen)
    (hone : ∀ b < g.length, ∃ e ∈ List.range E, gateAt g b e = 1 ∧
      ∀ e' ∈ List.range E, e' ≠ e → gateAt g b e' = 0) :
    combineList g E rowLen (dispatchList g E x) = x := by
  have hnn : ∀ b < g.length, ∀ e < E, 0 ≤ gateAt g b e := by
    intro b hb e he
    obtain ⟨e0, _, hg1, hz⟩ := hone b hb
    by_cases hee : e = e0
    · rw [hee, hg1]
      norm_num
    · rw [hz e (List.mem_range.2 he) hee]
  have hdisp := dispatchList_eq g E x hnn
  have hcell : ∀ b < g.length, ∀ j, combineCell g E (dispatchList g E x) b j =
      (x.getD b []).getD j 0 := by
    intro b hb j
    obtain ⟨e0, he0, hg1, hz⟩ := hone b hb
    have hacc := accumCell_eq g E (fun _ b' => x.getD b' []) (dispatchList g E x) b j hdisp
    simp only [] at hacc
    rw [← sum_map_ite_filter (List.range E) (fun e => gateAt g b e ≠ 0)
      (fun e => (gateAt g b e : ℝ) * Real.exp ((x.getD b []).getD j 0))] at hacc
    have hsingle := sum_map_eq_single (List.range E) (List.nodup_range E) e0 he0
      (fun e => if gateAt g b e ≠ 0 then (gateAt g b e : ℝ) *
        Real.exp ((x.getD b []).getD j 0) else 0)
      (fun e he hne => by simp [hz e he hne])
    rw [hsingle] at hacc
    simp only [] at hacc
    rw [hg1] at hacc
    norm_num at hacc
    rw [combineCell, hacc, if_neg (Real.exp_ne_zero _), Real.log_exp]
    simp [List.getD]
  apply List.ext_getElem
  · simp [combineList, hxg]
  · intro n h1 h2
    have hn : n < g.length := by simpa [combineList] using h1
    simp only [combineList, List.getElem_map, List.getElem_range]
    apply List.ext_getElem
    · rw [List.length_map, List.length_range]
      exact (hxr x[n] (List.getElem_mem h2)).symm
    · intro jj hj1 hj2
      rw [List.getElem_map, List.getElem_range, hcell n hn jj,
        List.getD_eq_getElem x [] h2, List.getD_eq_getElem _ _ hj2]

/-- Witness for C3: two samples, two identity experts, one-hot gate rows. -/
theorem claim_C3_witness :
    combineList [[1, 0], [0, 1]] 2 2
      (dispatchList [[1, 0], [0, 1]] 2 [[(1 : ℝ), 2], [3, 4]]) = [[(1 : ℝ), 2], [3, 4]] :=
  claim_C3_dispatch_combine_roundtrip [[1, 0], [0, 1]] 2 2 [[(1 : ℝ), 2], [3, 4]]
    (by decide) (by decide) (by decide)

/-- Claim C4: on a nonnegative gate matrix the dispatcher returns exactly one
sub-batch per expert (the list has length `E`), sub-batch `e` holds exactly the
samples whose gate entry for expert `e` is nonzero — ordered by expert as
primary key and original sample position as secondary key, which is the
increasing sample order within each sub-batch — and an expert with no routed
samples receives an explicitly empty sub-batch. -/
theorem claim_C4_dispatch_partition (g : List (List ℚ)) (E : ℕ) (inp : List (List ℝ))
    (_hgr : ∀ row ∈ g, row.length = E)
    (hnn : ∀ b < g.length, ∀ e < E, 0 ≤ gateAt g b e) :
    (dispatchList g E inp).length = E ∧
    (∀ e < E, (dispatchList g E inp).getD e [] =
      ((List.range g.length).filter (fun b => gateAt g b e ≠ 0)).map
        (fun b => inp.getD b [])) ∧
    (∀ e < E, (∀ b < g.length, gateAt g b e = 0) →
      (dispatchList g E inp).getD e [] = []) := by
  have hdisp := dispatchList_eq g E inp hnn
  have hgetD : ∀ e < E, (dispatchList g E inp).getD e [] =
      (expertRows g e).map (fun b => inp.getD b []) := by
    intro e he
    rw [hdisp, List.getD_eq_getElem _ _ (by simpa using he), List.getElem_map,
      List.getElem_range]
  refine ⟨by rw [hdisp]; simp, fun e he => hgetD e he, ?_⟩
  intro e he hz
  rw [hgetD e he, List.map_eq_nil_iff, expertRows, List.filter_eq_nil_iff]
  intro b hb
  simp [hz b (List.mem_range.1 hb)]

/-- Witness for C4: two samples and two experts, sample 0 routed to expert 0,
sample 1 routed to both; no expert is empty here, the first conjuncts are the
content. -/
theorem claim_C4_witness :
    (dispatchList [[1, 0], [2, 1]] 2 [[(5 : ℝ)], [7]]).length = 2 ∧
    (∀ e < 2, (dispatchList [[1, 0], [2, 1]] 2 [[(5 : ℝ)], [7]]).getD e [] =
      ((List.range (List.length [[(1 : ℚ), 0], [2, 1]])).filter
        (fun b => gateAt [[1, 0], [2, 1]] b e ≠ 0)).map
        (fun b => List.getD [[(5 : ℝ)], [7]] b [])) ∧
    (∀ e < 2, (∀ b < List.length [[(1 : ℚ), 0], [2, 1]], gateAt [[1, 0], [2, 1]] b e = 0) →
      (dispatchList [[1, 0], [2, 1]] 2 [[(5 : ℝ)], [7]]).getD e [] = []) :=
  claim_C4_dispatch_partition [[1, 0], [2, 1]] 2 [[(5 : ℝ)], [7]] (by decide) (by decide)

/-- Claim C5 as frozen is false at an all-zero gate row: the floor constant in
the source is `np.finfo(float).eps = 2⁻⁵² ≈ 2.220446049250313e-16` (the float64
machine epsilon), not the smallest representable positive double
`2.2250738585072014e-308`, so the output row equals `log 2⁻⁵²` and differs from
`log 2.2250738585072014e-308`. -/
theorem claim_C5_counterexample :
    combineCell [[0]] 1 [[]] 0 0 ≠ Real.log ((2.2250738585072014e-308 : ℚ) : ℝ) := by
  rw [combineCell_of_zero_row [[0]] 1 [[]] 0 0 (by decide)]
  have htpos : (0 : ℝ) < ((2.2250738585072014e-308 : ℚ) : ℝ) := by
    rw [show (2.2250738585072014e-308 : ℚ) = 22250738585072014 / 10 ^ 324 by norm_num]
    positivity
  have hlt : ((2.2250738585072014e-308 : ℚ) : ℝ) < ((npFloat64Eps : ℚ) : ℝ) := by
    rw [show (2.2250738585072014e-308 : ℚ) = 22250738585072014 / 10 ^ 324 by norm_num,
      npFloat64Eps]
    rw [Rat.cast_div, Rat.cast_div]
    rw [div_lt_div_iff (by positivity) (by positivity)]
    push_cast
    norm_num
  exact (Real.log_lt_log htpos hlt).ne'

/-- Claim C5 (amended): a sample with an all-zero gate row accumulates zero
everywhere; the floor substitution replaces those cells by the strictly
positive constant `np.finfo(float).eps = 2⁻⁵² = 2.220446049250313e-16` (the
float64 machine epsilon, not the smallest positive double), so every element
of the row equals `log` of that constant — finite, no `-∞`/`NaN`. -/
theorem claim_C5_zero_row_floor (g : List (List ℚ)) (E : ℕ) (eo : List (List (List ℝ)))
    (b j : ℕ) (hz : ∀ e < E, gateAt g b e = 0) :
    combineCell g E eo b j = Real.log ((npFloat64Eps : ℚ) : ℝ) ∧
    (0 : ℝ) < ((npFloat64Eps : ℚ) : ℝ) ∧ npFloat64Eps = 1 / 2 ^ 52 :=
  ⟨combineCell_of_zero_row g E eo b j hz, by rw [npFloat64Eps]; positivity, rfl⟩

/-- Witness for C5 (amended) at a one-sample, one-expert batch with the zero
gate row. -/
theorem claim_C5_witness :
    combineCell [[0]] 1 [[]] 0 0 = Real.log ((npFloat64Eps : ℚ) : ℝ) ∧
    (0 : ℝ) < ((npFloat64Eps : ℚ) : ℝ) ∧ npFloat64Eps = 1 / 2 ^ 52 :=
  claim_C5_zero_row_floor [[0]] 1 [[]] 0 0 (by decide)

/-- Claim C6: the claim says construction validates K against the candidate
count (clamping if needed) so that the forward top-K is always well-defined.
The code stores `self.k = configs.top_k` verbatim; with `seq_len = 16` there
are 6 candidate periods, so configuring `top_k = 6` passes construction
unchanged and `top_k_gating`'s `logits.topk(6 + 1)` then raises (`none`). -/
theorem claim_C6_no_construction_clamp :
    numPatchSizes 16 = 6 ∧ storedTopK 6 = 6 ∧
      gateRow? (List.replicate (numPatchSizes 16) 0) (storedTopK 6) = none := by
  refine ⟨by decide, rfl, ?_⟩
  rw [gateRow?, if_neg (by decide)]

/-- Claim C7: in inference (non-training) mode both gating variants ignore the
random noise draw entirely, so two calls on identical input produce identical
gate rows — inference-time routing is a deterministic function of its input. -/
theorem claim_C7_deterministic_inference (clean noisy1 noisy2 : List ℚ) (k : ℕ)
    (cleanW noisyW1 noisyW2 : List ℚ) :
    topKGating clean noisy1 false k = topKGating clean noisy2 false k ∧
    afnoGating cleanW noisyW1 false k = afnoGating cleanW noisyW2 false k :=
  ⟨rfl, rfl⟩

/-- Claim C8 as frozen is false: at `seq_len = 4` the rounded-and-deduplicated
candidate periods (4 and 2) are exactly as many as the nonzero frequency bins
(4/2 = 2), not strictly fewer. -/
theorem claim_C8_counterexample :
    (patchSizesCeil 4).length = 2 ∧ ¬ ((patchSizesCeil 4).length < 4 / 2) ∧
    (patchSizesFloor 4).length = 2 ∧ ¬ ((patchSizesFloor 4).length < 4 / 2) := by
  decide

/-- Claim C8 (amended): for every sequence length `L`, the candidate set is the
deterministic pure function of `L` got by rounding the period estimate `L/i`
for every nonzero frequency bin `i = 1 .. L/2` (DC excluded) and deduplicating;
its size is at most — not always strictly smaller than — the number of nonzero
frequency bins, in both variants (ceil rounding in MSPT.py, floor in
MSPT_0525.py); it is, in particular, strictly smaller than the total number of
rfft bins `L/2 + 1` (DC included). -/
theorem claim_C8_candidate_count (L : ℕ) :
    ((patchSizesCeil L).length ≤ L / 2 ∧ (patchSizesCeil L).length < L / 2 + 1) ∧
    ((patchSizesFloor L).length ≤ L / 2 ∧ (patchSizesFloor L).length < L / 2 + 1) := by
  have hceil : (patchSizesCeil L).length ≤ L / 2 := by
    rw [patchSizesCeil, List.length_insertionSort]
    calc (((List.range' 1 (L / 2)).map (periodCeil L)).dedup).length
        ≤ ((List.range' 1 (L / 2)).map (periodCeil L)).length :=
          (List.dedup_sublist _).length_le
      _ = L / 2 := by rw [List.length_map, List.length_range']
  have hfloor : (patchSizesFloor L).length ≤ L / 2 := by
    rw [patchSizesFloor, List.length_insertionSort]
    calc (((List.range' 1 (L / 2)).map (periodFloor L)).dedup).length
        ≤ ((List.range' 1 (L / 2)).map (periodFloor L)).length :=
          (List.dedup_sublist _).length_le
      _ = L / 2 := by rw [List.length_map, List.length_range']
  exact ⟨⟨hceil, by omega⟩, ⟨hfloor, by omega⟩⟩

/-- Claim C9: the claim says a pretraining-mode forward call completes and
returns a reconstruction plus the mask.  In the source the only assignment to
`dec_out` (the head call, line 507) is commented out, so the branch reads an
unbound local and raises `UnboundLocalError` before producing any output: the
embedded branch returns `none` for every input and every choice of the
encoder-stack and RevIN collaborators. -/
theorem claim_C9_pretrain_forward_raises
    (encoderStack revinInverse : List (List ℝ) → List (List ℝ))
    (enc_out : List (List ℝ)) (mask : List ℝ) :
    pretrainForwardBranch encoderStack revinInverse enc_out mask = none := rfl

/-- Claim C10's lower bound is false: a sample routed to a single expert with
weight 1 whose output cell is `-100` accumulates `exp(-100) > 0`; the cell is
nonzero, so the floor does not apply, and the combined value `-100` is *below*
`log(np.finfo(float).eps) ≈ -36.7`. -/
theorem claim_C10_counterexample :
    combineCell [[1]] 1
      ((List.range 1).map (fun e => (expertRows [[(1 : ℚ)]] e).map
        ((fun _ _ => [(-100 : ℝ)]) e))) 0 0 < Real.log ((npFloat64Eps : ℚ) : ℝ) := by
  have hacc := accumCell_eq [[(1 : ℚ)]] 1 (fun _ _ => [(-100 : ℝ)]) _ 0 0 rfl
  have hfilter : (List.range 1).filter (fun e => gateAt [[(1 : ℚ)]] 0 e ≠ 0) = [0] := by
    decide
  rw [hfilter] at hacc
  simp only [List.map_cons, List.map_nil, List.sum_cons, List.sum_nil] at hacc
  have hone : (gateAt [[(1 : ℚ)]] 0 0 : ℝ) = 1 := by
    norm_num [gateAt]
  rw [hone] at hacc
  simp only [one_mul, add_zero] at hacc
  have hval : ([(-100 : ℝ)].getD 0 0) = -100 := rfl
  rw [hval] at hacc
  rw [combineCell, hacc, if_neg (Real.exp_ne_zero _), Real.log_exp]
  rw [Real.lt_log_iff_exp_lt (by rw [npFloat64Eps]; push_cast; positivity)]
  have heps : ((npFloat64Eps : ℚ) : ℝ) = ((2 : ℝ) ^ 52)⁻¹ := by
    rw [npFloat64Eps]
    push_cast
    norm_num
  rw [heps, Real.exp_neg]
  apply inv_lt_inv_of_lt (by positivity)
  calc (2 : ℝ) ^ 52 ≤ 2 ^ 100 := by
        apply pow_le_pow_right (by norm_num) (by norm_num)
    _ < Real.exp 1 ^ 100 := by
        apply pow_lt_pow_left (lt_trans (by norm_num) Real.exp_one_gt_d9) (by norm_num)
        norm_num
    _ = Real.exp 100 := by
        rw [Real.exp_one_pow]
        norm_num

/-- Claim C10 (amended): the zero-floor substitution is elementwise — any cell
whose accumulated value is exactly 0 becomes `np.finfo(float).eps` even when
the sample was routed — and on a nonnegative gate matrix the value passed to
`log` is always strictly positive, so every output cell is the logarithm of a
positive number (never `log 0`); accumulated values strictly between 0 and the
floor are kept, so `log eps` is not a lower bound for the output. -/
theorem claim_C10_elementwise_floor (g : List (List ℚ)) (E : ℕ)
    (eo : List (List (List ℝ))) (b j : ℕ)
    (hnn : ∀ b' < g.length, ∀ e' < E, 0 ≤ gateAt g b' e') :
    (0 : ℝ) < (if accumCell g E eo b j = 0 then ((npFloat64Eps : ℚ) : ℝ)
      else accumCell g E eo b j) ∧
    combineCell g E eo b j = Real.log (if accumCell g E eo b j = 0
      then ((npFloat64Eps : ℚ) : ℝ) else accumCell g E eo b j) ∧
    (accumCell g E eo b j = 0 →
      combineCell g E eo b j = Real.log ((npFloat64Eps : ℚ) : ℝ)) := by
  refine ⟨?_, rfl, ?_⟩
  · by_cases h : accumCell g E eo b j = 0
    · rw [if_pos h, npFloat64Eps]
      push_cast
      positivity
    · rw [if_neg h]
      exact lt_of_le_of_ne (accumCell_nonneg g E eo b j hnn) (Ne.symm h)
  · intro h
    rw [combineCell, if_pos h]

/-- Witness for C10 (amended) at a one-sample batch routed to the single
expert with weight 1. -/
theorem claim_C10_witness :
    (0 : ℝ) < (if accumCell [[1]] 1 [[[(0 : ℝ)]]] 0 0 = 0 then ((npFloat64Eps : ℚ) : ℝ)
      else accumCell [[1]] 1 [[[(0 : ℝ)]]] 0 0) ∧
    combineCell [[1]] 1 [[[(0 : ℝ)]]] 0 0 =
      Real.log (if accumCell [[1]] 1 [[[(0 : ℝ)]]] 0 0 = 0
        then ((npFloat64Eps : ℚ) : ℝ) else accumCell [[1]] 1 [[[(0 : ℝ)]]] 0 0) ∧
    (accumCell [[1]] 1 [[[(0 : ℝ)]]] 0 0 = 0 →
      combineCell [[1]] 1 [[[(0 : ℝ)]]] 0 0 = Real.log ((npFloat64Eps : ℚ) : ℝ)) :=
  claim_C10_elementwise_floor [[1]] 1 [[[(0 : ℝ)]]] 0 0 (by decide)

end MSPT
